import Mathlib

/- Shallow embedding of the translate-kit repository (SRT subtitle utilities).

   Strings are modelled as `List Char`.  The Python string operations used by
   the scripts (`strip`, `split`, `join`, `in`, `endswith`, `replace`,
   `str.isdigit`, and the two regular expressions `\n\s*\n` and
   `\[.*?\]|\(.*?\)`) are embedded as executable functions below.  The
   whitespace and digit character classes are modelled over the ASCII range;
   Python's classes additionally accept some Unicode characters, which do not
   occur in the constructions of this development.

   File input/output is abstracted away: parsers take the file content, the
   writers return the content that would be written, and the OS / network
   interactions of the translation pipeline are parameterised by oracles. -/

set_option maxRecDepth 10000

/-- Python whitespace class (the ASCII fragment of `\s` and `str.strip`). -/
def isPySpace (c : Char) : Bool :=
  c = ' ' || c = '\t' || c = '\n' || c = '\r' || c = '\x0b' || c = '\x0c'

/-- Python `str.strip()`: remove leading and trailing whitespace. -/
def pyStrip (l : List Char) : List Char :=
  ((l.dropWhile isPySpace).reverse.dropWhile isPySpace).reverse

/-- Helper for the splitters: push a character onto the first piece. -/
def consHead (c : Char) : List (List Char) → List (List Char)
  | [] => [[c]]
  | b :: bs => (c :: b) :: bs

/-- Python `str.split('\n')` (keeps empty pieces; `"".split('\n') = ['']`). -/
def splitNl : List Char → List (List Char)
  | [] => [[]]
  | c :: rest => if c = '\n' then [] :: splitNl rest else consHead c (splitNl rest)

/-- Python `'\n'.join(...)`. -/
def joinNl : List (List Char) → List Char
  | [] => []
  | [l] => l
  | l :: l' :: ls => l ++ '\n' :: joinNl (l' :: ls)

/-- Python `'\n\n'.join(...)`, used for joining subtitle blocks and chunks. -/
def joinBlocks : List (List Char) → List Char
  | [] => []
  | [b] => b
  | b :: b' :: bs => b ++ '\n' :: '\n' :: joinBlocks (b' :: bs)

/-- Does `pat` occur as a leading sequence of `l`? -/
def startsWith : List Char → List Char → Bool
  | [], _ => true
  | _ :: _, [] => false
  | p :: ps, c :: cs => p = c && startsWith ps cs

/-- Python substring test `pat in l` (for nonempty `pat`). -/
def containsSub (pat : List Char) : List Char → Bool
  | [] => pat.isEmpty
  | c :: cs => startsWith pat (c :: cs) || containsSub pat cs

/-- Python `l.endswith(suffix)`. -/
def listEndsWith (suffix l : List Char) : Bool :=
  startsWith suffix.reverse l.reverse

/-- The arrow separator `-->` that timestamp lines are validated against. -/
def arrow : List Char := "-->".toList

/-- Python `str.isdigit()`: nonempty and made of digits only (ASCII model). -/
def isdigitB (l : List Char) : Bool :=
  !l.isEmpty && l.all Char.isDigit

/-- Python `str(n)` for a natural number. -/
def natDigits (n : Nat) : List Char := Nat.toDigits 10 n

/- Embedding of `re.split(r'\n\s*\n', s)`.

   The pattern matches at a position holding `'\n'` whose following maximal
   whitespace run contains another `'\n'`; by greediness of `\s*` (with the
   backtracking forced by the final `\n`) the match extends through the last
   `'\n'` of that run.  `re.split` scans left to right and cuts at each such
   match. -/

/-- Index of the last `'\n'` in a list, if any. -/
def lastNlIdx : List Char → Option Nat
  | [] => none
  | c :: cs =>
    match lastNlIdx cs with
    | some k => some (k + 1)
    | none => if c = '\n' then some 0 else none

/-- Having just consumed a `'\n'`, the number of further characters the
pattern `\n\s*\n` consumes from `rest` (through the last `'\n'` of the
whitespace run), or `none` if the pattern does not match here. -/
def sepLen (rest : List Char) : Option Nat :=
  match lastNlIdx (rest.takeWhile isPySpace) with
  | some k => some (k + 1)
  | none => none

/-- Fuelled scanner for `re.split(r'\n\s*\n', ·)`; each step consumes at
least one character, so fuel equal to the length of the list suffices. -/
def reSplitF : Nat → List Char → List (List Char)
  | 0, l => [l]
  | _ + 1, [] => [[]]
  | f + 1, c :: rest =>
    if c = '\n' then
      match sepLen rest with
      | some n => [] :: reSplitF f (rest.drop n)
      | none => consHead c (reSplitF f rest)
    else consHead c (reSplitF f rest)

/-- Embedding of `re.split(r'\n\s*\n', l)`. -/
def reSplit (l : List Char) : List (List Char) := reSplitF l.length l

namespace Common

/- common/subtitle.py and common/parse.py -/

/-- The `Subtitle` class of `common/subtitle.py` (fields `id`, `timestamps`,
`text`).  The extra field `id_line` models the attribute that
`brackets.write_srt` adds dynamically to instances (`subtitle.id_line = ...`);
it does not exist on freshly constructed objects (`none`) and is not read by
`__str__`. -/
structure Subtitle where
  id : List Char
  timestamps : List Char
  text : List Char
  id_line : Option (List Char) := none
deriving DecidableEq

/-- The method `Subtitle.__str__`: `f"{self.id}\n{self.timestamps}\n{self.text}"`. -/
def Subtitle.str (s : Subtitle) : List Char :=
  s.id ++ '\n' :: (s.timestamps ++ '\n' :: s.text)

/-- The body of the block loop of `common/parse.py parse_srt`: strip the
block, split into lines, and build a `Subtitle` when the block has at least
three lines, a digits-only first line (after stripping it) and a second line
(after stripping it) containing the arrow. -/
def parseBlock (block : List Char) : Option Subtitle :=
  let lines := splitNl (pyStrip block)
  if 3 ≤ lines.length then
    let idLine := pyStrip (lines.headD [])
    let ts := pyStrip ((lines.drop 1).headD [])
    let text := pyStrip (joinNl (lines.drop 2))
    if isdigitB idLine && containsSub arrow ts then
      some { id := idLine, timestamps := ts, text := text }
    else none
  else none

/-- The function `parse_srt` of `common/parse.py`, applied to the content of
the file: strip the content, split it into blocks with `re.split(r'\n\s*\n', ·)`,
and keep the blocks that parse (invalid blocks are logged and skipped). -/
def parse_srt (content : List Char) : List Subtitle :=
  (reSplit (pyStrip content)).filterMap parseBlock

end Common

/- brackets.py -/

/-- Scanning for the lazy `.*?` body: number of characters before the first
`close`, or `none` if a `'\n'` (which `.` does not match) or the end of the
string comes first. -/
def scanClose (close : Char) : List Char → Option Nat
  | [] => none
  | c :: rest =>
    if c = close then some 0
    else if c = '\n' then none
    else (scanClose close rest).map (fun k => k + 1)

/-- Fuelled embedding of `re.sub(r'\[.*?\]|\(.*?\)', '', ·)`: at a `'['`
(resp. `'('`) whose matching close appears before any newline, drop the whole
span and continue after it; otherwise keep the character. -/
def removeSpansF : Nat → List Char → List Char
  | 0, l => l
  | _ + 1, [] => []
  | f + 1, c :: rest =>
    if c = '[' then
      match scanClose ']' rest with
      | some k => removeSpansF f (rest.drop (k + 1))
      | none => c :: removeSpansF f rest
    else if c = '(' then
      match scanClose ')' rest with
      | some k => removeSpansF f (rest.drop (k + 1))
      | none => c :: removeSpansF f rest
    else c :: removeSpansF f rest

/-- Embedding of `re.sub(r'\[.*?\]|\(.*?\)', '', l)`. -/
def removeSpans (l : List Char) : List Char := removeSpansF l.length l

/-- The function `remove_bracketed_and_parenthesized_text_from_subtitle` of
`brackets.py`: replace the text by the regex-cleaned, stripped text. -/
def remove_bracketed_and_parenthesized_text_from_subtitle
    (subtitle : Common.Subtitle) : Common.Subtitle :=
  { subtitle with text := pyStrip (removeSpans subtitle.text) }

/-- The loop of `brackets.py write_srt`: subtitles with empty text are
skipped; for the others the `id_line` attribute is set to the running counter
(`subtitle.id_line = str(subtitle_counter)`) and `str(subtitle)` is written.
The returned list holds the successive blocks written. -/
def write_srt_blocks : List Common.Subtitle → Nat → List (List Char)
  | [], _ => []
  | s :: rest, counter =>
    if s.text.isEmpty then write_srt_blocks rest counter
    else
      Common.Subtitle.str { s with id_line := some (natDigits counter) } ::
        write_srt_blocks rest (counter + 1)

/-- The function `write_srt` of `brackets.py`: the content written to the
output file (each block followed by a blank line). -/
def write_srt (subtitles : List Common.Subtitle) : List Char :=
  ((write_srt_blocks subtitles 1).map (fun b => b ++ ['\n', '\n'])).flatten

namespace Translate

/- translate.py -/

/-- The `Subtitle` class duplicated inside `translate.py` (field `id_line`
instead of `id`). -/
structure Subtitle where
  id_line : List Char
  timestamps : List Char
  text : List Char
deriving DecidableEq

/-- Its `__str__`: `f"{self.id_line}\n{self.timestamps}\n{self.text}"`. -/
def Subtitle.str (s : Subtitle) : List Char :=
  s.id_line ++ '\n' :: (s.timestamps ++ '\n' :: s.text)

/-- The block loop body of the `parse_srt` duplicated inside `translate.py`
(same code as `common/parse.py`, building the local `Subtitle`). -/
def parseBlock (block : List Char) : Option Subtitle :=
  let lines := splitNl (pyStrip block)
  if 3 ≤ lines.length then
    let idLine := pyStrip (lines.headD [])
    let ts := pyStrip ((lines.drop 1).headD [])
    let text := pyStrip (joinNl (lines.drop 2))
    if isdigitB idLine && containsSub arrow ts then
      some { id_line := idLine, timestamps := ts, text := text }
    else none
  else none

/-- The `parse_srt` duplicated inside `translate.py`, on the file content. -/
def parse_srt (content : List Char) : List Subtitle :=
  (reSplit (pyStrip content)).filterMap parseBlock

end Translate

/-- Fuelled embedding of the slicing loop
`for i in range(0, len(subtitles), chunk_size): subtitles[i:i+chunk_size]`;
each step consumes at least one element when `1 ≤ size`. -/
def chunksOfF (size : Nat) : Nat → List α → List (List α)
  | _, [] => []
  | 0, _ :: _ => []
  | f + 1, x :: rest => (x :: rest).take size :: chunksOfF size f ((x :: rest).drop size)

/-- The slicing loop itself.  (Python raises `ValueError` on step `0`; the
scripts only use the step `50`.) -/
def chunksOf (size : Nat) (xs : List α) : List (List α) :=
  if size = 0 then [] else chunksOfF size xs.length xs

/-- The function `chunk_subtitles_as_text` of `translate.py`: slice the
subtitle list and join each slice's `str(...)` blocks with blank lines. -/
def chunk_subtitles_as_text (subtitles : List Translate.Subtitle)
    (chunk_size : Nat) : List (List Char) :=
  (chunksOf chunk_size subtitles).map (fun chunk => joinBlocks (chunk.map Translate.Subtitle.str))

/-- Outcome of one call of the chat-completion API inside `translate_chunk`:
a response text, an `OpenAIError`, or any other exception. -/
inductive ApiOutcome where
  | success (text : List Char)
  | apiError
  | otherError
deriving DecidableEq

/-- The response validation of `translate_chunk`:
`"-->" in translated_text and translated_text.strip().endswith("```")`
(where `translated_text` is the stripped response). -/
def acceptsTranslation (t : List Char) : Bool :=
  containsSub arrow t && listEndsWith "```".toList (pyStrip t)

/-- Fuelled embedding of Python `str.replace(pat, '')` (both uses replace
with the empty string): scan left to right, dropping each occurrence. -/
def replaceAllF (pat : List Char) : Nat → List Char → List Char
  | _, [] => []
  | 0, l => l
  | f + 1, c :: rest =>
    if startsWith pat (c :: rest) then replaceAllF pat f ((c :: rest).drop pat.length)
    else c :: replaceAllF pat f rest

/-- Python `l.replace(pat, '')`. -/
def replaceAll (pat l : List Char) : List Char := replaceAllF pat l.length l

/-- The fence clean-up of an accepted response:
`translated_text.replace("```srt", "").replace("```", "").strip()`. -/
def cleanTranslation (t : List Char) : List Char :=
  pyStrip (replaceAll "```".toList (replaceAll "```srt".toList t))

/-- Trace of one `translate_chunk` call: the returned value, the list of
`asyncio.sleep` durations performed, and the number of API calls made. -/
structure TcTrace where
  result : Option (List Char)
  sleeps : List Nat
  calls : Nat
deriving DecidableEq

/-- One iteration of the retry loop `for attempt in range(retries)` of
`translate_chunk`, given the outcome of this attempt and the trace of the
remaining iterations: an accepted response returns the cleaned text; a
malformed response falls through to the next attempt without sleeping; an
`OpenAIError` sleeps `delay * (attempt + 1)` and retries, except on the last
attempt (`remaining = 0`) where `None` is returned; any other exception
returns `None`. -/
def translateAttempt (delay remaining attempt : Nat) (o : ApiOutcome) (r : TcTrace) : TcTrace :=
  match o with
  | .success t =>
    if acceptsTranslation (pyStrip t) = true then ⟨some (cleanTranslation (pyStrip t)), [], 1⟩
    else ⟨r.result, r.sleeps, r.calls + 1⟩
  | .apiError =>
    if remaining = 0 then ⟨none, [], 1⟩
    else ⟨r.result, delay * (attempt + 1) :: r.sleeps, r.calls + 1⟩
  | .otherError => ⟨none, [], 1⟩

/-- The retry loop itself (`remaining` is `retries - attempt`); being pure,
the trace of the remaining iterations can be passed to `translateAttempt`,
which ignores it on the terminating branches. -/
def translateLoop (api : Nat → ApiOutcome) (delay : Nat) : Nat → Nat → TcTrace
  | 0, _ => ⟨none, [], 0⟩
  | remaining + 1, attempt =>
    translateAttempt delay remaining attempt (api attempt)
      (translateLoop api delay remaining (attempt + 1))

/-- The function `translate_chunk` of `translate.py` (its Python defaults
are `retries=3` and `delay=5`), with the API call abstracted by `api`. -/
def translate_chunk (api : Nat → ApiOutcome) (retries : Nat)
    (delay : Nat) : TcTrace :=
  translateLoop api delay retries 0

/-- The trailing-newline fix-up of `process_srt_file`'s writer. -/
def withFinalNl (l : List Char) : List Char :=
  if listEndsWith ['\n'] l then l else l ++ ['\n']

/-- The function `process_srt_file` of `translate.py`, on the content of the
input file, with each chunk's translation outcome abstracted by `translate`:
returns the content written to the output file, or `none` when no output file
is created (no valid subtitles, or no successfully translated chunk). -/
def process_srt_file (content : List Char)
    (translate : List Char → Option (List Char)) : Option (List Char) :=
  let subtitles := Translate.parse_srt content
  if subtitles.isEmpty then none
  else
    let chunks := chunk_subtitles_as_text subtitles 50
    let results := chunks.map translate
    let successes := results.filterMap (fun r => r)
    if successes.isEmpty then none
    else some (withFinalNl (joinBlocks successes))

/-- Environment abstraction for `translate.py main`: whether the OpenAI
client initialised at module load, whether the input directory exists,
whether the output directory exists or could be created, the contents of the
`.srt` files found, and the per-chunk translation oracle. -/
structure Env where
  clientOk : Bool
  inputDirExists : Bool
  outputDirExists : Bool
  mkdirOk : Bool
  srtFileContents : List (List Char)
  translate : List Char → Option (List Char)

namespace Translate

/-- The function `main` of `translate.py`: `none` when it stops before
processing any file (client not initialised, missing input directory, or
failed creation of a missing output directory); otherwise the outcomes of
processing every found file. -/
def main (env : Env) : Option (List (Option (List Char))) :=
  if !env.clientOk then none
  else if !env.inputDirExists then none
  else if !env.outputDirExists && !env.mkdirOk then none
  else some (env.srtFileContents.map (fun c => process_srt_file c env.translate))

end Translate

/-- Projection of a `common` subtitle to the three fields of the data model. -/
def fieldsOf (s : Common.Subtitle) : List Char × List Char × List Char :=
  (s.id, s.timestamps, s.text)

/-- Invariant for the round-trip proof: the whitespace run at the front of
`v` contains no newline and ends before the end of `v`, so that a separator
match `\n\s*\n` cannot start at a newline directly preceding `v`. -/
def noNlWsPreB (v : List Char) : Bool :=
  (v.takeWhile isPySpace).all (fun c => !(c = '\n')) && !(v.dropWhile isPySpace).isEmpty

/-- No position inside the string can start a `\n\s*\n` separator match,
even when more text is appended after it. -/
def sepFreeB : List Char → Bool
  | [] => true
  | c :: rest => (if c = '\n' then noNlWsPreB rest else true) && sepFreeB rest

/- Helper lemmas -/

/-- Mapping projections over two pointwise-compatible `filterMap`s. -/
theorem filterMap_map_congr {α β γ δ : Type} (f : δ → Option α) (g : δ → Option β)
    (p : α → γ) (q : β → γ) (h : ∀ b, (f b).map p = (g b).map q) (l : List δ) :
    (l.filterMap f).map p = (l.filterMap g).map q := by
  induction l with
  | nil => rfl
  | cons x xs ih =>
    have hx := h x
    cases hf : f x <;> cases hg : g x <;> rw [hf, hg] at hx <;>
      simp only [List.filterMap_cons, hf, hg, Option.map_none', Option.map_some',
        Option.some.injEq, List.map_cons] at hx ⊢
    · exact ih
    · exact absurd hx (by simp)
    · exact absurd hx (by simp)
    · rw [hx, ih]

/-- The two duplicated block parsers accept the same blocks and produce the
same field triples. -/
theorem parseBlock_bridge (b : List Char) :
    (Translate.parseBlock b).map (fun s => (s.id_line, s.timestamps, s.text))
      = (Common.parseBlock b).map (fun s => (s.id, s.timestamps, s.text)) := by
  unfold Translate.parseBlock Common.parseBlock
  by_cases h3 : 3 ≤ (splitNl (pyStrip b)).length
  · by_cases hv : (isdigitB (pyStrip ((splitNl (pyStrip b)).headD []))
        && containsSub arrow (pyStrip (((splitNl (pyStrip b)).drop 1).headD []))) = true <;>
      simp [h3, hv]
  · simp [h3]

/- Claim theorems -/

/-- Claim C8: `remove_bracketed_and_parenthesized_text_from_subtitle` leaves
the `id` and `timestamps` fields unchanged, and replaces the text by the old
text with every lazily-matched bracketed and parenthesized span removed and
surrounding whitespace stripped. -/
theorem remove_bracketed_frame (s : Common.Subtitle) :
    (remove_bracketed_and_parenthesized_text_from_subtitle s).id = s.id ∧
    (remove_bracketed_and_parenthesized_text_from_subtitle s).timestamps = s.timestamps ∧
    (remove_bracketed_and_parenthesized_text_from_subtitle s).text
      = pyStrip (removeSpans s.text) :=
  ⟨rfl, rfl, rfl⟩

/-- Claim C2: `write_srt` writes exactly the subtitles with non-empty text,
serialized in input order (for any starting counter value). -/
theorem write_srt_nonempty_filter (subs : List Common.Subtitle) (counter : Nat) :
    write_srt_blocks subs counter
      = (subs.filter (fun s => !s.text.isEmpty)).map Common.Subtitle.str := by
  induction subs generalizing counter with
  | nil => rfl
  | cons s rest ih =>
    by_cases h : s.text.isEmpty
    · simp [write_srt_blocks, h, List.filter_cons, ih]
    · simp [write_srt_blocks, h, List.filter_cons, ih, Common.Subtitle.str]

/-- Claim C1 (bug evaluation): on a subtitle whose sequence number is `7`,
the single block `write_srt` writes still has first line `7`, not the counter
value `1`: the assignment `subtitle.id_line = str(subtitle_counter)` targets
an attribute that `Subtitle.__str__` never reads, so the promised renumbering
does not reach the output. -/
theorem write_srt_renumber_ineffective :
    (write_srt_blocks [⟨"7".toList, "a --> b".toList, "x".toList, none⟩] 1).map
        (fun b => (splitNl b).headD []) = ["7".toList]
      ∧ "7".toList ≠ natDigits 1 := by decide

/-- Claim C10: the `parse_srt` and `Subtitle` duplicated inside
`translate.py` are extensionally equivalent to the shared ones in `common`:
on every file content both parsers produce the same field triples, and both
serializations produce the same block string. -/
theorem duplicate_parser_equiv (content : List Char) (i t x : List Char) :
    (Translate.parse_srt content).map (fun s => (s.id_line, s.timestamps, s.text))
      = (Common.parse_srt content).map (fun s => (s.id, s.timestamps, s.text)) ∧
    Translate.Subtitle.str ⟨i, t, x⟩ = Common.Subtitle.str ⟨i, t, x, none⟩ :=
  ⟨filterMap_map_congr _ _ _ _ parseBlock_bridge _, rfl⟩

/-- Claim C3 (amended): a block yields a `Subtitle` exactly when, after
stripping the block, it has at least three lines, its first line after
stripping is a nonempty run of digits, and its second line after stripping
contains the arrow `-->`; `parse_srt` keeps exactly the blocks that parse, in
file order. -/
theorem parseBlock_accepts_iff (block content : List Char) :
    ((Common.parseBlock block).isSome = true ↔
      (3 ≤ (splitNl (pyStrip block)).length ∧
       isdigitB (pyStrip ((splitNl (pyStrip block)).headD [])) = true ∧
       containsSub arrow (pyStrip (((splitNl (pyStrip block)).drop 1).headD [])) = true)) ∧
    Common.parse_srt content = (reSplit (pyStrip content)).filterMap Common.parseBlock := by
  refine ⟨?_, rfl⟩
  unfold Common.parseBlock
  by_cases h3 : 3 ≤ (splitNl (pyStrip block)).length
  · by_cases hd : isdigitB (pyStrip ((splitNl (pyStrip block)).headD [])) = true <;>
      by_cases ha : containsSub arrow (pyStrip (((splitNl (pyStrip block)).drop 1).headD [])) = true <;>
      simp [h3, hd, ha]
  · simp [h3]

/-- Claim C3 (counterexample to the claim as stated): the file content
`"1 \n0 --> 1\nx"` is a single block that `parse_srt` accepts, although its
first line `"1 "` does not consist solely of digits (the code strips the line
before testing `isdigit`). -/
theorem parseBlock_first_line_not_all_digits :
    Common.parse_srt "1 \n0 --> 1\nx".toList
        = [⟨"1".toList, "0 --> 1".toList, "x".toList, none⟩] ∧
    (Common.parseBlock "1 \n0 --> 1\nx".toList).isSome = true ∧
    ((splitNl (pyStrip "1 \n0 --> 1\nx".toList)).headD []).all Char.isDigit = false := by
  decide

/- Chunking lemmas (claim C4) -/

/-- Fuel irrelevance for the slicing loop: any fuel at least the list length
computes the same chunks. -/
theorem chunksOfF_fuel {α : Type} (size : Nat) :
    ∀ (f : Nat) (xs : List α), 1 ≤ size → xs.length ≤ f →
      chunksOfF size f xs = chunksOfF size xs.length xs := by
  intro f
  induction f using Nat.strong_induction_on with
  | _ f ih =>
    intro xs hs hxs
    cases xs with
    | nil => cases f <;> rfl
    | cons x rest =>
      cases f with
      | zero => simp at hxs
      | succ f' =>
        simp only [List.length_cons] at hxs
        show ((x :: rest).take size :: chunksOfF size f' ((x :: rest).drop size))
           = ((x :: rest).take size :: chunksOfF size rest.length ((x :: rest).drop size))
        have hlen : ((x :: rest).drop size).length ≤ f' := by
          simp only [List.length_drop, List.length_cons]
          omega
        have hlen2 : ((x :: rest).drop size).length ≤ rest.length := by
          simp only [List.length_drop, List.length_cons]
          omega
        rw [ih f' (by omega) _ hs hlen, ih rest.length (by omega) _ hs hlen2]

/-- Unfolding of the slicing loop on a nonempty list. -/
theorem chunksOf_cons {α : Type} (size : Nat) (hs : 1 ≤ size) (x : α) (rest : List α) :
    chunksOf size (x :: rest) = (x :: rest).take size :: chunksOf size ((x :: rest).drop size) := by
  unfold chunksOf
  rw [if_neg (by omega), if_neg (by omega)]
  show (x :: rest).take size :: chunksOfF size rest.length ((x :: rest).drop size) = _
  congr 1
  exact chunksOfF_fuel size rest.length _ hs
    (by simp only [List.length_drop, List.length_cons]; omega)

/-- The slicing loop of an empty list gives no chunks. -/
theorem chunksOf_nil {α : Type} (size : Nat) : chunksOf size ([] : List α) = [] := by
  unfold chunksOf
  split <;> rfl

/-- The chunks concatenate back to the original list: they cover every
element exactly once, in input order. -/
theorem chunksOf_flatten {α : Type} (size : Nat) (hs : 1 ≤ size) :
    ∀ (n : Nat) (xs : List α), xs.length ≤ n → (chunksOf size xs).flatten = xs := by
  intro n
  induction n with
  | zero =>
    intro xs h
    have hx : xs = [] := by cases xs <;> simp_all
    subst hx
    rw [chunksOf_nil]
    rfl
  | succ n ih =>
    intro xs h
    cases xs with
    | nil => rw [chunksOf_nil]; rfl
    | cons x rest =>
      rw [chunksOf_cons size hs]
      simp only [List.flatten_cons]
      rw [ih _ (by simp only [List.length_drop, List.length_cons] at h ⊢; omega)]
      exact List.take_append_drop size (x :: rest)

/-- With chunk size 50, the number of chunks is the ceiling of `n / 50`. -/
theorem chunksOf50_length {α : Type} :
    ∀ (n : Nat) (xs : List α), xs.length ≤ n →
      (chunksOf 50 xs).length = (xs.length + 49) / 50 := by
  intro n
  induction n with
  | zero =>
    intro xs h
    have hx : xs = [] := by cases xs <;> simp_all
    subst hx
    rw [chunksOf_nil]
    simp
  | succ n ih =>
    intro xs h
    cases xs with
    | nil => rw [chunksOf_nil]; simp
    | cons x rest =>
      rw [chunksOf_cons 50 (by omega), List.length_cons,
        ih _ (by simp only [List.length_drop, List.length_cons] at h ⊢; omega)]
      simp only [List.length_drop, List.length_cons]
      omega

/-- With chunk size 50, the `i`-th chunk is the slice `xs[50*i : 50*i+50]`. -/
theorem chunksOf50_getElem {α : Type} :
    ∀ (n : Nat) (xs : List α) (i : Nat), xs.length ≤ n → 50 * i < xs.length →
      (chunksOf 50 xs)[i]? = some ((xs.drop (50 * i)).take 50) := by
  intro n
  induction n with
  | zero => intro xs i h hi; omega
  | succ n ih =>
    intro xs i h hi
    cases xs with
    | nil => simp at hi
    | cons x rest =>
      rw [chunksOf_cons 50 (by omega)]
      cases i with
      | zero => simp
      | succ j =>
        simp only [List.getElem?_cons_succ]
        rw [ih ((x :: rest).drop 50) j
          (by simp only [List.length_drop, List.length_cons] at h ⊢; omega)
          (by simp only [List.length_drop, List.length_cons] at hi ⊢; omega)]
        rw [List.drop_drop]
        have he : 50 + 50 * j = 50 * (j + 1) := by ring
        rw [he]

/-- Claim C4: `chunk_subtitles_as_text` with chunk size 50 produces
`⌈n/50⌉` chunk strings; the `i`-th chunk is the serialization of the
consecutive subtitles at indices `50*i` to `50*i + 49`, joined by blank
lines; and the underlying slices cover the subtitle list exactly once, in
input order. -/
theorem chunk_subtitles_as_text_spec (subs : List Translate.Subtitle) :
    (chunk_subtitles_as_text subs 50).length = (subs.length + 49) / 50 ∧
    (∀ i : Nat, 50 * i < subs.length →
      (chunk_subtitles_as_text subs 50)[i]? =
        some (joinBlocks (((subs.drop (50 * i)).take 50).map Translate.Subtitle.str))) ∧
    (chunksOf 50 subs).flatten = subs := by
  refine ⟨?_, ?_, ?_⟩
  · unfold chunk_subtitles_as_text
    rw [List.length_map]
    exact chunksOf50_length subs.length subs le_rfl
  · intro i hi
    unfold chunk_subtitles_as_text
    rw [List.getElem?_map, chunksOf50_getElem subs.length subs i le_rfl hi]
    rfl
  · exact chunksOf_flatten 50 (by omega) subs.length subs le_rfl

/-- Witness for claim C4 at a concrete one-subtitle list. -/
theorem chunk_subtitles_as_text_spec_witness :
    (chunk_subtitles_as_text [⟨"1".toList, "a --> b".toList, "x".toList⟩] 50)[0]? =
      some (joinBlocks ((([(⟨"1".toList, "a --> b".toList, "x".toList⟩ : Translate.Subtitle)].drop
        (50 * 0)).take 50).map Translate.Subtitle.str)) :=
  (chunk_subtitles_as_text_spec [⟨"1".toList, "a --> b".toList, "x".toList⟩]).2.1 0 (by decide)


/- Retry-loop lemmas (claim C5) -/

/-- An API outcome that passes `translate_chunk`'s response validation. -/
def accepted : ApiOutcome → Bool
  | .success t => acceptsTranslation (pyStrip t)
  | .apiError => false
  | .otherError => false

/-- The retry loop makes at most `remaining` API calls. -/
theorem translateLoop_calls_le (api : Nat → ApiOutcome) (delay : Nat) :
    ∀ (remaining attempt : Nat), (translateLoop api delay remaining attempt).calls ≤ remaining := by
  intro remaining
  induction remaining with
  | zero => intro attempt; exact Nat.le_refl 0
  | succ rem ih =>
    intro attempt
    show (translateAttempt delay rem attempt (api attempt)
      (translateLoop api delay rem (attempt + 1))).calls ≤ rem + 1
    have hr := ih (attempt + 1)
    cases api attempt with
    | success t =>
      by_cases hacc : acceptsTranslation (pyStrip t) = true <;>
        simp [translateAttempt, hacc] <;> omega
    | apiError =>
      by_cases h0 : rem = 0 <;> simp [translateAttempt, h0] <;> omega
    | otherError => simp [translateAttempt]

/-- The retry loop makes at least one API call when an attempt remains. -/
theorem translateLoop_calls_pos (api : Nat → ApiOutcome) (delay : Nat)
    (rem attempt : Nat) : 1 ≤ (translateLoop api delay (rem + 1) attempt).calls := by
  show 1 ≤ (translateAttempt delay rem attempt (api attempt)
    (translateLoop api delay rem (attempt + 1))).calls
  cases api attempt with
  | success t =>
    by_cases hacc : acceptsTranslation (pyStrip t) = true <;>
      simp [translateAttempt, hacc] <;> omega
  | apiError =>
    by_cases h0 : rem = 0 <;> simp [translateAttempt, h0] <;> omega
  | otherError => simp [translateAttempt]

/-- The sleeps performed by the retry loop are exactly `delay * (i + 1)` for
the non-final attempts `i` (numbered from `attempt`) that raised an API
error, in order. -/
theorem translateLoop_sleeps (api : Nat → ApiOutcome) (delay : Nat) :
    ∀ (remaining attempt : Nat),
      (translateLoop api delay remaining attempt).sleeps
        = (((List.range ((translateLoop api delay remaining attempt).calls - 1)).map
            (fun j => attempt + j)).filter (fun i => api i == ApiOutcome.apiError)).map
            (fun i => delay * (i + 1)) := by
  intro remaining
  induction remaining with
  | zero => intro attempt; rfl
  | succ rem ih =>
    intro attempt
    have hstep : translateLoop api delay (rem + 1) attempt
        = translateAttempt delay rem attempt (api attempt)
            (translateLoop api delay rem (attempt + 1)) := rfl
    have hr := ih (attempt + 1)
    have hshift : ∀ c : Nat,
        ((List.range c).map (fun j => attempt + (j + 1))).filter
            (fun i => api i == ApiOutcome.apiError)
          = ((List.range c).map (fun j => (attempt + 1) + j)).filter
            (fun i => api i == ApiOutcome.apiError) := by
      intro c
      congr 1
      apply List.map_congr_left
      intro j _
      omega
    cases h : api attempt with
    | success t =>
      by_cases hacc : acceptsTranslation (pyStrip t) = true
      · have htr : translateLoop api delay (rem + 1) attempt
            = ⟨some (cleanTranslation (pyStrip t)), [], 1⟩ := by
          rw [hstep, h]
          simp [translateAttempt, hacc]
        rw [htr]
        rfl
      · have htr : translateLoop api delay (rem + 1) attempt
            = ⟨(translateLoop api delay rem (attempt + 1)).result,
               (translateLoop api delay rem (attempt + 1)).sleeps,
               (translateLoop api delay rem (attempt + 1)).calls + 1⟩ := by
          rw [hstep, h]
          simp [translateAttempt, hacc]
        rw [htr]
        show (translateLoop api delay rem (attempt + 1)).sleeps = _
        show _ = (((List.range ((translateLoop api delay rem (attempt + 1)).calls + 1 - 1)).map
            (fun j => attempt + j)).filter (fun i => api i == ApiOutcome.apiError)).map
            (fun i => delay * (i + 1))
        rw [Nat.add_sub_cancel]
        cases hc : (translateLoop api delay rem (attempt + 1)).calls with
        | zero =>
          rw [hc] at hr
          simp only [Nat.zero_sub, List.range_zero, List.map_nil, List.filter_nil] at hr
          simp [hr]
        | succ c =>
          rw [hc] at hr
          simp only [Nat.succ_sub_one] at hr
          rw [List.range_succ_eq_map, List.map_cons, List.map_map, List.filter_cons]
          have hne : (api (attempt + 0) == ApiOutcome.apiError) = false := by
            rw [Nat.add_zero, h]
            rfl
          rw [hne]
          simp only [Bool.false_eq_true, if_false]
          rw [hr]
          congr 1
          have : ((fun j => attempt + j) ∘ Nat.succ) = (fun j => attempt + (j + 1)) := rfl
          rw [this, hshift c]
    | apiError =>
      by_cases h0 : rem = 0
      · subst h0
        have htr : translateLoop api delay (0 + 1) attempt = ⟨none, [], 1⟩ := by
          rw [hstep, h]
          rfl
        rw [htr]
        rfl
      · obtain ⟨r', rfl⟩ := Nat.exists_eq_succ_of_ne_zero h0
        have htr : translateLoop api delay (r' + 1 + 1) attempt
            = ⟨(translateLoop api delay (r' + 1) (attempt + 1)).result,
               delay * (attempt + 1) ::
                 (translateLoop api delay (r' + 1) (attempt + 1)).sleeps,
               (translateLoop api delay (r' + 1) (attempt + 1)).calls + 1⟩ := by
          rw [hstep, h]
          simp [translateAttempt]
        rw [htr]
        show (delay * (attempt + 1) ::
            (translateLoop api delay (r' + 1) (attempt + 1)).sleeps) = _
        show _ = (((List.range ((translateLoop api delay (r' + 1) (attempt + 1)).calls + 1 - 1)).map
            (fun j => attempt + j)).filter (fun i => api i == ApiOutcome.apiError)).map
            (fun i => delay * (i + 1))
        rw [Nat.add_sub_cancel]
        have hpos := translateLoop_calls_pos api delay r' (attempt + 1)
        cases hc : (translateLoop api delay (r' + 1) (attempt + 1)).calls with
        | zero => rw [hc] at hpos; omega
        | succ c =>
          rw [hc] at hr
          simp only [Nat.succ_sub_one] at hr
          rw [List.range_succ_eq_map, List.map_cons, List.map_map, List.filter_cons]
          have heq : (api (attempt + 0) == ApiOutcome.apiError) = true := by
            rw [Nat.add_zero, h]
            rfl
          rw [heq]
          simp only [if_pos rfl, List.map_cons, Nat.add_zero]
          rw [hr]
          congr 1
          congr 1
          have : ((fun j => attempt + j) ∘ Nat.succ) = (fun j => attempt + (j + 1)) := rfl
          rw [this, hshift c]
    | otherError =>
      have htr : translateLoop api delay (rem + 1) attempt = ⟨none, [], 1⟩ := by
        rw [hstep, h]
        rfl
      rw [htr]
      rfl

/-- If no attempt within range is accepted, the loop returns `None`. -/
theorem translateLoop_result_none (api : Nat → ApiOutcome) (delay : Nat) :
    ∀ (remaining attempt : Nat),
      (∀ i, attempt ≤ i → i < attempt + remaining → accepted (api i) = false) →
      (translateLoop api delay remaining attempt).result = none := by
  intro remaining
  induction remaining with
  | zero => intro attempt _; rfl
  | succ rem ih =>
    intro attempt hno
    show (translateAttempt delay rem attempt (api attempt)
        (translateLoop api delay rem (attempt + 1))).result = none
    have hx : accepted (api attempt) = false := hno attempt (Nat.le_refl _) (by omega)
    cases h : api attempt with
    | success t =>
      rw [h] at hx
      have hacc : acceptsTranslation (pyStrip t) = false := hx
      simp only [translateAttempt, hacc, Bool.false_eq_true, if_false]
      exact ih (attempt + 1) (fun i h1 h2 => hno i (by omega) (by omega))
    | apiError =>
      by_cases h0 : rem = 0
      · simp [translateAttempt, h0]
      · simp only [translateAttempt, h0, if_false]
        exact ih (attempt + 1) (fun i h1 h2 => hno i (by omega) (by omega))
    | otherError => rfl

/-- Claim C5: with its default of 3 retries, `translate_chunk` makes at most
3 attempts at the API call; its sleeps are exactly `delay * k` after the
`k`-th attempt (`k = 1, 2`) when that attempt failed with an API error and
another attempt followed (a linear backoff multiplier; the default delay is
5); and if no attempt yields an accepted response it returns `None`, so the
chunk is dropped from the output. -/
theorem translate_chunk_retry_spec (api : Nat → ApiOutcome) (delay : Nat) :
    (translate_chunk api 3 delay).calls ≤ 3 ∧
    (translate_chunk api 3 delay).sleeps
      = ((List.range ((translate_chunk api 3 delay).calls - 1)).filter
          (fun i => api i == ApiOutcome.apiError)).map (fun i => delay * (i + 1)) ∧
    ((∀ i, i < 3 → accepted (api i) = false) →
      (translate_chunk api 3 delay).result = none) := by
  refine ⟨translateLoop_calls_le api delay 3 0, ?_, ?_⟩
  · have h := translateLoop_sleeps api delay 3 0
    have hid : ((List.range ((translateLoop api delay 3 0).calls - 1)).map (fun j => 0 + j))
        = List.range ((translateLoop api delay 3 0).calls - 1) := by
      simp
    rw [hid] at h
    exact h
  · intro hno
    exact translateLoop_result_none api delay 3 0 (fun i _ h2 => hno i (by omega))

/-- Witness for claim C5: an API that always raises drops the chunk. -/
theorem translate_chunk_retry_spec_witness :
    (translate_chunk (fun _ => ApiOutcome.apiError) 3 5).result = none :=
  (translate_chunk_retry_spec (fun _ => ApiOutcome.apiError) 5).2.2 (by decide)

/- Pipeline lemmas (claims C6 and C7) -/

/-- Closed form of `process_srt_file`. -/
theorem process_srt_file_eq (content : List Char)
    (translate : List Char → Option (List Char)) :
    process_srt_file content translate =
      if (Translate.parse_srt content).isEmpty then none
      else if (((chunk_subtitles_as_text (Translate.parse_srt content) 50).map
          translate).filterMap (fun r => r)).isEmpty then none
      else some (withFinalNl (joinBlocks
        (((chunk_subtitles_as_text (Translate.parse_srt content) 50).map
          translate).filterMap (fun r => r)))) := rfl

/-- Claim C6: a failed chunk does not affect the others: the output file is
exactly the successful chunks' translations joined by blank lines (with a
final newline ensured), preserving chunk order, and no output file is
created exactly when no chunk translation succeeded (in particular when
every chunk failed). -/
theorem process_srt_file_skips_failed (content : List Char)
    (translate : List Char → Option (List Char)) :
    (process_srt_file content translate = none ↔
      (chunk_subtitles_as_text (Translate.parse_srt content) 50).filterMap translate = []) ∧
    ((chunk_subtitles_as_text (Translate.parse_srt content) 50).filterMap translate ≠ [] →
      process_srt_file content translate =
        some (withFinalNl (joinBlocks
          ((chunk_subtitles_as_text (Translate.parse_srt content) 50).filterMap translate)))) := by
  have hmap : ((chunk_subtitles_as_text (Translate.parse_srt content) 50).map
        translate).filterMap (fun r => r)
      = (chunk_subtitles_as_text (Translate.parse_srt content) 50).filterMap translate := by
    rw [List.filterMap_map]
    rfl
  have heq := process_srt_file_eq content translate
  rw [hmap] at heq
  by_cases hsub : (Translate.parse_srt content).isEmpty
  · have hempty : Translate.parse_srt content = [] := by
      rwa [List.isEmpty_iff] at hsub
    rw [heq, if_pos hsub, hempty]
    have hc : chunk_subtitles_as_text ([] : List Translate.Subtitle) 50 = [] := rfl
    rw [hc]
    simp
  · rw [heq, if_neg hsub]
    by_cases hsucc : ((chunk_subtitles_as_text (Translate.parse_srt content) 50).filterMap
        translate).isEmpty
    · have h0 : (chunk_subtitles_as_text (Translate.parse_srt content) 50).filterMap
          translate = [] := by
        rwa [List.isEmpty_iff] at hsucc
      rw [if_pos hsucc, h0]
      simp
    · have h0 : (chunk_subtitles_as_text (Translate.parse_srt content) 50).filterMap
          translate ≠ [] := fun hnil => hsucc (by rw [hnil]; rfl)
      rw [if_neg hsucc]
      simp [h0]

/-- Witness for claim C6: with a single valid subtitle and a translation
oracle that echoes the chunk, the written file is the chunk itself with a
final newline. -/
theorem process_srt_file_skips_failed_witness :
    process_srt_file "1\na --> b\nx".toList (fun c => some c) =
      some (withFinalNl (joinBlocks
        ((chunk_subtitles_as_text (Translate.parse_srt "1\na --> b\nx".toList) 50).filterMap
          (fun c => some c)))) :=
  (process_srt_file_skips_failed "1\na --> b\nx".toList (fun c => some c)).2 (by decide)

/-- Claim C7 (amended): `main` stops before processing any file exactly when
the client failed to initialise, the input directory is missing, or a
missing output directory could not be created; otherwise every found file is
processed, whatever the per-file or per-chunk outcomes are. -/
theorem main_fatal_cases (env : Env) :
    (Translate.main env = none ↔
      (env.clientOk = false ∨ env.inputDirExists = false ∨
        (env.outputDirExists = false ∧ env.mkdirOk = false))) ∧
    (Translate.main env ≠ none →
      Translate.main env
        = some (env.srtFileContents.map (fun c => process_srt_file c env.translate))) := by
  unfold Translate.main
  cases hc : env.clientOk <;> cases hi : env.inputDirExists <;>
    cases ho : env.outputDirExists <;> cases hm : env.mkdirOk <;> simp [hc, hi, ho, hm]

/-- Witness for claim C7 at a fully healthy environment. -/
theorem main_fatal_cases_witness :
    Translate.main ⟨true, true, true, true, [], fun _ => none⟩
      = some (([] : List (List Char)).map
          (fun c => process_srt_file c (fun _ => none))) :=
  (main_fatal_cases ⟨true, true, true, true, [], fun _ => none⟩).2 (fun h => Option.noConfusion h)

/-- Claim C7 (counterexample to the claim as stated): when the OpenAI client
failed to initialise at startup, `main` processes no files even though the
input directory exists and the output directory exists — a third fatal case
beyond the two the claim names. -/
theorem main_stops_without_client :
    Translate.main ⟨false, true, true, true, [], fun _ => none⟩ = none ∧
    (⟨false, true, true, true, [], fun _ => none⟩ : Env).inputDirExists = true ∧
    (⟨false, true, true, true, [], fun _ => none⟩ : Env).outputDirExists = true :=
  ⟨rfl, rfl, rfl⟩

/- String lemmas for the round-trip proof (claim C9) -/

/-- Dropping a prefix never lengthens a list. -/
theorem length_dropWhile_le (p : Char → Bool) (l : List Char) :
    (l.dropWhile p).length ≤ l.length := by
  induction l with
  | nil => exact Nat.le_refl 0
  | cons c rest ih =>
    rw [List.dropWhile_cons]
    split
    · exact Nat.le_trans ih (by simp)
    · exact Nat.le_refl _

/-- A `dropWhile` keeping the whole length kept the whole list. -/
theorem dropWhile_eq_self_of_length (p : Char → Bool) (l : List Char)
    (h : (l.dropWhile p).length = l.length) : l.dropWhile p = l := by
  induction l with
  | nil => rfl
  | cons c rest ih =>
    rw [List.dropWhile_cons] at h ⊢
    by_cases hc : p c = true
    · rw [if_pos hc] at h ⊢
      have := length_dropWhile_le p rest
      simp only [List.length_cons] at h
      omega
    · rw [if_neg hc]

/-- A string equal to its own strip does not start with whitespace. -/
theorem dropWhile_eq_self_of_pyStrip (l : List Char) (h : pyStrip l = l) :
    l.dropWhile isPySpace = l := by
  have h1 : (pyStrip l).length ≤ (l.dropWhile isPySpace).length := by
    unfold pyStrip
    rw [List.length_reverse]
    exact Nat.le_trans (length_dropWhile_le _ _) (by rw [List.length_reverse])
  have h2 := length_dropWhile_le isPySpace l
  rw [h] at h1
  exact dropWhile_eq_self_of_length _ _ (Nat.le_antisymm h2 h1)

/-- A string equal to its own strip does not end with whitespace. -/
theorem reverse_dropWhile_eq_of_pyStrip (l : List Char) (h : pyStrip l = l) :
    l.reverse.dropWhile isPySpace = l.reverse := by
  have h1 := dropWhile_eq_self_of_pyStrip l h
  unfold pyStrip at h
  rw [h1] at h
  have h2 := congrArg List.reverse h
  rwa [List.reverse_reverse] at h2

/-- The head of a list untouched by `dropWhile isPySpace` is not whitespace. -/
theorem head_not_space_of_dropWhile_eq (c : Char) (m : List Char)
    (h : (c :: m).dropWhile isPySpace = c :: m) : isPySpace c = false := by
  cases hcb : isPySpace c with
  | false => rfl
  | true =>
    rw [List.dropWhile_cons, if_pos hcb] at h
    have hlen := congrArg List.length h
    have hle := length_dropWhile_le isPySpace m
    simp only [List.length_cons] at hlen
    omega

/-- When `takeWhile` stops inside `l`, appending after `l` cannot change it. -/
theorem takeWhile_append_of_stop (p : Char → Bool) (l y : List Char)
    (h : l.dropWhile p ≠ []) : (l ++ y).takeWhile p = l.takeWhile p := by
  induction l with
  | nil => simp at h
  | cons c rest ih =>
    by_cases hc : p c = true
    · rw [List.dropWhile_cons, if_pos hc] at h
      rw [List.cons_append, List.takeWhile_cons, if_pos hc, List.takeWhile_cons, if_pos hc,
        ih h]
    · rw [List.cons_append, List.takeWhile_cons, if_neg hc, List.takeWhile_cons, if_neg hc]

/-- When `dropWhile` stops inside `l`, it commutes with appending. -/
theorem dropWhile_append_of_stop (p : Char → Bool) (l y : List Char)
    (h : l.dropWhile p ≠ []) : (l ++ y).dropWhile p = l.dropWhile p ++ y := by
  induction l with
  | nil => simp at h
  | cons c rest ih =>
    by_cases hc : p c = true
    · rw [List.dropWhile_cons, if_pos hc] at h
      rw [List.cons_append, List.dropWhile_cons, if_pos hc, List.dropWhile_cons, if_pos hc,
        ih h]
    · rw [List.cons_append, List.dropWhile_cons, if_neg hc, List.dropWhile_cons, if_neg hc]
      rfl

/-- `takeWhile` keeps any property all elements have. -/
theorem all_takeWhile (p q : Char → Bool) (l : List Char) (h : l.all q = true) :
    (l.takeWhile p).all q = true := by
  induction l with
  | nil => rfl
  | cons c rest ih =>
    simp only [List.all_cons, Bool.and_eq_true] at h
    rw [List.takeWhile_cons]
    split
    · simp only [List.all_cons, Bool.and_eq_true]
      exact ⟨h.1, ih h.2⟩
    · rfl

/-- A list without newlines has no last-newline index. -/
theorem lastNlIdx_eq_none (w : List Char) (h : w.all (fun c => !(c = '\n')) = true) :
    lastNlIdx w = none := by
  induction w with
  | nil => rfl
  | cons c cs ih =>
    simp only [List.all_cons, Bool.and_eq_true] at h
    show (match lastNlIdx cs with
      | some k => some (k + 1)
      | none => if c = '\n' then some 0 else none) = none
    rw [ih h.2, if_neg (of_decide_eq_false (by simpa using h.1))]

/-- Under `noNlWsPreB`, the separator cannot match just before `v`, whatever
follows `v`. -/
theorem sepLen_eq_none (v y : List Char) (hv : noNlWsPreB v = true) :
    sepLen (v ++ y) = none ∧ sepLen v = none := by
  unfold noNlWsPreB at hv
  rw [Bool.and_eq_true] at hv
  obtain ⟨h1, h2⟩ := hv
  have hne : v.dropWhile isPySpace ≠ [] := by simpa using h2
  constructor
  · unfold sepLen
    rw [takeWhile_append_of_stop _ _ _ hne, lastNlIdx_eq_none _ h1]
  · unfold sepLen
    rw [lastNlIdx_eq_none _ h1]

/- reSplit lemmas (claim C9) -/

/-- One-step unfolding of `lastNlIdx`. -/
theorem lastNlIdx_cons (c : Char) (cs : List Char) :
    lastNlIdx (c :: cs) = match lastNlIdx cs with
      | some k => some (k + 1)
      | none => if c = '\n' then some 0 else none := rfl

/-- The last-newline index lies inside the list. -/
theorem lastNlIdx_lt_length (w : List Char) (k : Nat) (h : lastNlIdx w = some k) :
    k < w.length := by
  induction w generalizing k with
  | nil => cases h
  | cons c cs ih =>
    rw [lastNlIdx_cons] at h
    cases hcs : lastNlIdx cs with
    | some k' =>
      rw [hcs] at h
      injection h with h
      subst h
      have := ih k' hcs
      simp only [List.length_cons]
      omega
    | none =>
      rw [hcs] at h
      by_cases hc : c = '\n'
      · rw [if_pos hc] at h
        injection h with h
        subst h
        simp
      · rw [if_neg hc] at h
        cases h

/-- A `takeWhile` never lengthens a list. -/
theorem length_takeWhile_le (p : Char → Bool) (l : List Char) :
    (l.takeWhile p).length ≤ l.length := by
  induction l with
  | nil => exact Nat.le_refl 0
  | cons c rest ih =>
    rw [List.takeWhile_cons]
    split
    · simpa using ih
    · simp

/-- A separator match consumes between 1 and `rest.length` characters. -/
theorem sepLen_bounds (rest : List Char) (n : Nat) (h : sepLen rest = some n) :
    1 ≤ n ∧ n ≤ rest.length := by
  unfold sepLen at h
  cases hw : lastNlIdx (rest.takeWhile isPySpace) with
  | none => rw [hw] at h; cases h
  | some k =>
    rw [hw] at h
    injection h with h
    subst h
    have hk := lastNlIdx_lt_length _ k hw
    have hlen := length_takeWhile_le isPySpace rest
    omega

/-- Step lemma: a separator match at the head. -/
theorem reSplitF_sep (f : Nat) (rest : List Char) (n : Nat) (hs : sepLen rest = some n) :
    reSplitF (f + 1) ('\n' :: rest) = [] :: reSplitF f (rest.drop n) := by
  conv_lhs => unfold reSplitF
  rw [if_pos rfl, hs]

/-- Step lemma: a newline that starts no separator match. -/
theorem reSplitF_nosep (f : Nat) (rest : List Char) (hs : sepLen rest = none) :
    reSplitF (f + 1) ('\n' :: rest) = consHead '\n' (reSplitF f rest) := by
  conv_lhs => unfold reSplitF
  rw [if_pos rfl, hs]

/-- Step lemma: an ordinary character. -/
theorem reSplitF_other (f : Nat) (c : Char) (rest : List Char) (hc : ¬ (c = '\n')) :
    reSplitF (f + 1) (c :: rest) = consHead c (reSplitF f rest) := by
  conv_lhs => unfold reSplitF
  rw [if_neg hc]

/-- Fuel irrelevance: any fuel at least the length computes the same split. -/
theorem reSplitF_fuel : ∀ (f : Nat) (x : List Char), x.length ≤ f →
    reSplitF f x = reSplitF x.length x := by
  intro f
  induction f using Nat.strong_induction_on with
  | _ f ih =>
    intro x hx
    cases x with
    | nil => cases f <;> rfl
    | cons c rest =>
      cases f with
      | zero => simp at hx
      | succ f' =>
        simp only [List.length_cons] at hx ⊢
        by_cases hc : c = '\n'
        · subst hc
          cases hs : sepLen rest with
          | some n =>
            rw [reSplitF_sep f' rest n hs, reSplitF_sep rest.length rest n hs]
            obtain ⟨hn1, hn2⟩ := sepLen_bounds rest n hs
            rw [ih f' (by omega) _ (by rw [List.length_drop]; omega),
              ih rest.length (by omega) _ (by rw [List.length_drop]; omega)]
          | none =>
            rw [reSplitF_nosep f' rest hs, reSplitF_nosep rest.length rest hs]
            rw [ih f' (by omega) _ (by omega),
              ih rest.length (by omega) _ (Nat.le_refl _)]
        · rw [reSplitF_other f' c rest hc, reSplitF_other rest.length c rest hc]
          rw [ih f' (by omega) _ (by omega),
            ih rest.length (by omega) _ (Nat.le_refl _)]

/-- A separator match at the head, at the level of `reSplit`. -/
theorem reSplit_sep (rest : List Char) (n : Nat) (hs : sepLen rest = some n) :
    reSplit ('\n' :: rest) = [] :: reSplit (rest.drop n) := by
  show reSplitF ('\n' :: rest).length ('\n' :: rest) = _
  rw [List.length_cons, reSplitF_sep rest.length rest n hs]
  obtain ⟨h1, h2⟩ := sepLen_bounds rest n hs
  rw [reSplitF_fuel rest.length (rest.drop n) (by rw [List.length_drop]; omega)]
  rfl

/-- A non-separator newline, at the level of `reSplit`. -/
theorem reSplit_nosep (rest : List Char) (hs : sepLen rest = none) :
    reSplit ('\n' :: rest) = consHead '\n' (reSplit rest) := by
  show reSplitF ('\n' :: rest).length ('\n' :: rest) = _
  rw [List.length_cons, reSplitF_nosep rest.length rest hs]
  rfl

/-- An ordinary character, at the level of `reSplit`. -/
theorem reSplit_other (c : Char) (rest : List Char) (hc : ¬ (c = '\n')) :
    reSplit (c :: rest) = consHead c (reSplit rest) := by
  show reSplitF (c :: rest).length (c :: rest) = _
  rw [List.length_cons, reSplitF_other rest.length c rest hc]
  rfl

/-- A separator-free string is a single block. -/
theorem reSplit_eq_single (x : List Char) (hx : sepFreeB x = true) : reSplit x = [x] := by
  induction x with
  | nil => rfl
  | cons c rest ih =>
    rw [show sepFreeB (c :: rest)
        = ((if c = '\n' then noNlWsPreB rest else true) && sepFreeB rest) from rfl,
      Bool.and_eq_true] at hx
    obtain ⟨h1, h2⟩ := hx
    by_cases hc : c = '\n'
    · subst hc
      rw [if_pos rfl] at h1
      rw [reSplit_nosep rest (sepLen_eq_none rest [] h1).2, ih h2]
      rfl
    · rw [reSplit_other c rest hc, ih h2]
      rfl

/-- Splitting a separator-free block followed by a blank-line separator and
more text starting with a non-whitespace character. -/
theorem reSplit_block_append (x : List Char) (hx : sepFreeB x = true)
    (d : Char) (ds : List Char) (hd : isPySpace d = false) :
    reSplit (x ++ '\n' :: '\n' :: d :: ds) = x :: reSplit (d :: ds) := by
  induction x with
  | nil =>
    have htw : ('\n' :: d :: ds).takeWhile isPySpace = ['\n'] := by
      rw [List.takeWhile_cons, if_pos (by decide), List.takeWhile_cons,
        if_neg (by simp [hd])]
    have hs : sepLen ('\n' :: d :: ds) = some 1 := by
      unfold sepLen
      rw [htw]
      rfl
    rw [List.nil_append, reSplit_sep ('\n' :: d :: ds) 1 hs]
    rfl
  | cons c rest ih =>
    rw [show sepFreeB (c :: rest)
        = ((if c = '\n' then noNlWsPreB rest else true) && sepFreeB rest) from rfl,
      Bool.and_eq_true] at hx
    obtain ⟨h1, h2⟩ := hx
    by_cases hc : c = '\n'
    · subst hc
      rw [if_pos rfl] at h1
      rw [List.cons_append, reSplit_nosep _ (sepLen_eq_none rest _ h1).1, ih h2]
      rfl
    · rw [List.cons_append, reSplit_other c _ hc, ih h2]
      rfl

/-- Splitting the blank-line join of separator-free blocks that each start
with a non-whitespace character recovers exactly the blocks. -/
theorem reSplit_joinBlocks : ∀ (bs : List (List Char)), bs ≠ [] →
    (∀ b ∈ bs, sepFreeB b = true ∧ ∃ c cs, b = c :: cs ∧ isPySpace c = false) →
    reSplit (joinBlocks bs) = bs := by
  intro bs
  induction bs with
  | nil => intro h; exact absurd rfl h
  | cons b bs' ih =>
    intro _ hall
    cases bs' with
    | nil =>
      obtain ⟨hsf, _⟩ := hall b (by simp)
      show reSplit (joinBlocks [b]) = [b]
      rw [show joinBlocks [b] = b from rfl]
      exact reSplit_eq_single b hsf
    | cons b2 bs'' =>
      obtain ⟨hsf, _⟩ := hall b (by simp)
      obtain ⟨hsf2, c2, cs2, hb2, hc2⟩ := hall b2 (by simp)
      have hjb : ∃ z, joinBlocks (b2 :: bs'') = c2 :: z := by
        cases bs'' with
        | nil => exact ⟨cs2, by rw [show joinBlocks [b2] = b2 from rfl, hb2]⟩
        | cons b3 bs3 =>
          refine ⟨cs2 ++ '\n' :: '\n' :: joinBlocks (b3 :: bs3), ?_⟩
          rw [show joinBlocks (b2 :: b3 :: bs3)
              = b2 ++ '\n' :: '\n' :: joinBlocks (b3 :: bs3) from rfl, hb2]
          rfl
      obtain ⟨z, hz⟩ := hjb
      rw [show joinBlocks (b :: b2 :: bs'')
          = b ++ '\n' :: '\n' :: joinBlocks (b2 :: bs'') from rfl, hz,
        reSplit_block_append b hsf c2 z hc2, ← hz,
        ih (by simp) (fun x hx => hall x (List.mem_cons_of_mem b hx))]

/- splitNl / joinNl lemmas (claim C9) -/

/-- One-step unfolding of `splitNl`. -/
theorem splitNl_cons (c : Char) (rest : List Char) :
    splitNl (c :: rest)
      = if c = '\n' then [] :: splitNl rest else consHead c (splitNl rest) := rfl

/-- Splitting always yields at least one line. -/
theorem splitNl_ne_nil (t : List Char) : splitNl t ≠ [] := by
  induction t with
  | nil => simp [show splitNl [] = [[]] from rfl]
  | cons c rest ih =>
    rw [splitNl_cons]
    split
    · simp
    · cases hsp : splitNl rest with
      | nil => exact absurd hsp ih
      | cons l ls => simp [consHead]

/-- Joining the lines back gives the original string. -/
theorem joinNl_splitNl (t : List Char) : joinNl (splitNl t) = t := by
  induction t with
  | nil => rfl
  | cons c rest ih =>
    rw [splitNl_cons]
    by_cases hc : c = '\n'
    · subst hc
      rw [if_pos rfl]
      cases hsp : splitNl rest with
      | nil => exact absurd hsp (splitNl_ne_nil rest)
      | cons l ls =>
        rw [show joinNl ([] :: l :: ls) = [] ++ '\n' :: joinNl (l :: ls) from rfl, ← hsp, ih]
        rfl
    · rw [if_neg hc]
      cases hsp : splitNl rest with
      | nil => exact absurd hsp (splitNl_ne_nil rest)
      | cons l ls =>
        rw [hsp] at ih
        cases ls with
        | nil =>
          rw [show consHead c [l] = [c :: l] from rfl,
            show joinNl [c :: l] = c :: l from rfl,
            show joinNl [l] = l from rfl] at *
          rw [ih]
        | cons l2 ls2 =>
          rw [show consHead c (l :: l2 :: ls2) = (c :: l) :: l2 :: ls2 from rfl,
            show joinNl ((c :: l) :: l2 :: ls2)
              = (c :: l) ++ '\n' :: joinNl (l2 :: ls2) from rfl]
          rw [show joinNl (l :: l2 :: ls2) = l ++ '\n' :: joinNl (l2 :: ls2) from rfl] at ih
          rw [List.cons_append, ih]

/-- Splitting a newline-free string followed by an explicit newline. -/
theorem splitNl_noNl_append (x y : List Char)
    (hx : x.all (fun c => !(c = '\n')) = true) :
    splitNl (x ++ '\n' :: y) = x :: splitNl y := by
  induction x with
  | nil => rw [List.nil_append, splitNl_cons, if_pos rfl]
  | cons c rest ih =>
    simp only [List.all_cons, Bool.and_eq_true] at hx
    have hc : ¬ (c = '\n') := of_decide_eq_false (by simpa using hx.1)
    rw [List.cons_append, splitNl_cons, if_neg hc, ih hx.2]
    rfl

/-- Every line produced by `splitNl` is newline-free. -/
theorem splitNl_lines_noNl (t : List Char) :
    ∀ l ∈ splitNl t, l.all (fun c => !(c = '\n')) = true := by
  induction t with
  | nil =>
    intro l hl
    rw [show splitNl [] = [[]] from rfl] at hl
    simp at hl
    subst hl
    rfl
  | cons c rest ih =>
    intro l hl
    rw [splitNl_cons] at hl
    by_cases hc : c = '\n'
    · rw [if_pos hc] at hl
      rcases List.mem_cons.mp hl with h | h
      · subst h; rfl
      · exact ih l h
    · rw [if_neg hc] at hl
      cases hsp : splitNl rest with
      | nil => exact absurd hsp (splitNl_ne_nil rest)
      | cons m ms =>
        rw [hsp, show consHead c (m :: ms) = (c :: m) :: ms from rfl] at hl
        rcases List.mem_cons.mp hl with h | h
        · subst h
          simp only [List.all_cons, Bool.and_eq_true]
          exact ⟨by simpa using hc, ih m (by rw [hsp]; simp)⟩
        · exact ih l (by rw [hsp]; simp [h])

/- sepFreeB composition lemmas (claim C9) -/

/-- One-step unfolding of `sepFreeB`. -/
theorem sepFreeB_cons (c : Char) (rest : List Char) :
    sepFreeB (c :: rest)
      = ((if c = '\n' then noNlWsPreB rest else true) && sepFreeB rest) := rfl

/-- A newline-free prefix does not affect separator freeness. -/
theorem sepFreeB_noNl_append (x y : List Char)
    (hx : x.all (fun c => !(c = '\n')) = true) :
    sepFreeB (x ++ y) = sepFreeB y := by
  induction x with
  | nil => rfl
  | cons c rest ih =>
    simp only [List.all_cons, Bool.and_eq_true] at hx
    have hc : ¬ (c = '\n') := of_decide_eq_false (by simpa using hx.1)
    rw [List.cons_append, sepFreeB_cons, if_neg hc, Bool.true_and, ih hx.2]

/-- A newline-free string is separator-free. -/
theorem sepFreeB_of_noNl (x : List Char) (hx : x.all (fun c => !(c = '\n')) = true) :
    sepFreeB x = true := by
  have h2 := sepFreeB_noNl_append x [] hx
  rw [List.append_nil] at h2
  rw [h2]
  rfl

/-- A string starting with a non-whitespace character satisfies the
whitespace-run invariant. -/
theorem noNlWsPreB_cons_of_not_space (c : Char) (l : List Char)
    (hc : isPySpace c = false) : noNlWsPreB (c :: l) = true := by
  unfold noNlWsPreB
  rw [List.takeWhile_cons, if_neg (by simp [hc]), List.dropWhile_cons,
    if_neg (by simp [hc])]
  rfl

/-- A newline-free line holding some non-whitespace character satisfies the
whitespace-run invariant, whatever follows it. -/
theorem noNlWsPreB_append (l y : List Char)
    (hnl : l.all (fun c => !(c = '\n')) = true)
    (hstop : l.dropWhile isPySpace ≠ []) : noNlWsPreB (l ++ y) = true := by
  unfold noNlWsPreB
  rw [takeWhile_append_of_stop _ _ _ hstop, dropWhile_append_of_stop _ _ _ hstop,
    all_takeWhile isPySpace _ l hnl]
  have h2 : (l.dropWhile isPySpace ++ y).isEmpty = false := by
    cases hd : l.dropWhile isPySpace with
    | nil => exact absurd hd hstop
    | cons a as => rfl
  rw [h2]
  rfl

/-- The newline-join of newline-free lines, each holding a non-whitespace
character, is separator-free. -/
theorem sepFreeB_joinNl : ∀ (lines : List (List Char)), lines ≠ [] →
    (∀ l ∈ lines, l.all (fun c => !(c = '\n')) = true ∧ l.dropWhile isPySpace ≠ []) →
    sepFreeB (joinNl lines) = true := by
  intro lines
  induction lines with
  | nil => intro h; exact absurd rfl h
  | cons l ls ih =>
    intro _ hall
    obtain ⟨hnl, hstop⟩ := hall l (by simp)
    cases ls with
    | nil =>
      show sepFreeB (joinNl [l]) = true
      rw [show joinNl [l] = l from rfl]
      exact sepFreeB_of_noNl l hnl
    | cons l2 ls2 =>
      obtain ⟨hnl2, hstop2⟩ := hall l2 (by simp)
      rw [show joinNl (l :: l2 :: ls2) = l ++ '\n' :: joinNl (l2 :: ls2) from rfl,
        sepFreeB_noNl_append l _ hnl, sepFreeB_cons, if_pos rfl]
      have hjoin : ∃ z, joinNl (l2 :: ls2) = l2 ++ z := by
        cases ls2 with
        | nil => exact ⟨[], by rw [show joinNl [l2] = l2 from rfl, List.append_nil]⟩
        | cons l3 ls3 => exact ⟨'\n' :: joinNl (l3 :: ls3), rfl⟩
      obtain ⟨z, hz⟩ := hjoin
      rw [Bool.and_eq_true]
      constructor
      · rw [hz]
        exact noNlWsPreB_append l2 z hnl2 hstop2
      · exact ih (by simp) (fun x hx => hall x (List.mem_cons_of_mem l hx))

/-- A text whose lines all contain a non-whitespace character is
separator-free. -/
theorem sepFreeB_text (t : List Char)
    (h : ∀ l ∈ splitNl t, l.dropWhile isPySpace ≠ []) : sepFreeB t = true := by
  have h2 := sepFreeB_joinNl (splitNl t) (splitNl_ne_nil t)
    (fun l hl => ⟨splitNl_lines_noNl t l hl, h l hl⟩)
  rwa [joinNl_splitNl] at h2

/- Per-subtitle lemmas (claim C9) -/

/-- A digit is not whitespace. -/
theorem isDigit_not_space (c : Char) (h : c.isDigit = true) : isPySpace c = false := by
  cases hsp : isPySpace c with
  | false => rfl
  | true =>
    unfold isPySpace at hsp
    simp only [Bool.or_eq_true, decide_eq_true_eq] at hsp
    rcases hsp with ((((h' | h') | h') | h') | h') | h' <;> subst h' <;>
      exact absurd h (by decide)

/-- A digit is not a newline. -/
theorem all_digits_noNl (l : List Char) (h : l.all Char.isDigit = true) :
    l.all (fun c => !(c = '\n')) = true := by
  rw [List.all_eq_true] at h ⊢
  intro c hc
  have hd := h c hc
  simp only [Bool.not_eq_true', decide_eq_false_iff_not]
  intro he
  subst he
  exact absurd hd (by decide)

/-- A string both of whose ends are not whitespace equals its strip. -/
theorem pyStrip_eq_self (l : List Char) (hhead : l.dropWhile isPySpace = l)
    (hlast : l.reverse.dropWhile isPySpace = l.reverse) : pyStrip l = l := by
  unfold pyStrip
  rw [hhead, hlast, List.reverse_reverse]

/-- All-digit strings do not start with whitespace. -/
theorem dropWhile_eq_self_of_all_digits (l : List Char) (h : l.all Char.isDigit = true) :
    l.dropWhile isPySpace = l := by
  cases l with
  | nil => rfl
  | cons c rest =>
    rw [List.all_cons, Bool.and_eq_true] at h
    rw [List.dropWhile_cons, if_neg (by simp [isDigit_not_space c h.1])]

/-- All-digit strings equal their strip. -/
theorem pyStrip_digits (l : List Char) (h : l.all Char.isDigit = true) : pyStrip l = l := by
  apply pyStrip_eq_self
  · exact dropWhile_eq_self_of_all_digits l h
  · exact dropWhile_eq_self_of_all_digits l.reverse (by rwa [List.all_reverse])

/-- A string containing the arrow is nonempty. -/
theorem ts_ne_nil_of_arrow (ts : List Char) (h : containsSub arrow ts = true) : ts ≠ [] := by
  intro hl
  subst hl
  exact absurd h (by decide)

/-- A nonempty stripped string starts with a non-whitespace character. -/
theorem exists_cons_not_space (l : List Char) (hne : l ≠ []) (hstrip : pyStrip l = l) :
    ∃ c cs, l = c :: cs ∧ isPySpace c = false := by
  have hd := dropWhile_eq_self_of_pyStrip l hstrip
  cases hl : l with
  | nil => exact absurd hl hne
  | cons c cs =>
    rw [hl] at hd
    exact ⟨c, cs, rfl, head_not_space_of_dropWhile_eq c cs hd⟩

/-- A nonempty stripped string ends with a non-whitespace character. -/
theorem exists_concat_not_space (l : List Char) (hne : l ≠ []) (hstrip : pyStrip l = l) :
    ∃ d m, l.reverse = d :: m ∧ isPySpace d = false := by
  have hrev := reverse_dropWhile_eq_of_pyStrip l hstrip
  cases hl : l.reverse with
  | nil =>
    rw [List.reverse_eq_nil_iff] at hl
    exact absurd hl hne
  | cons d m =>
    rw [hl] at hrev
    exact ⟨d, m, rfl, head_not_space_of_dropWhile_eq d m hrev⟩

/-- A serialized valid subtitle block equals its strip. -/
theorem pyStrip_str (s : Common.Subtitle) (hid : pyStrip s.id = s.id) (hidne : s.id ≠ [])
    (htext : pyStrip s.text = s.text) (htextne : s.text ≠ []) :
    pyStrip (Common.Subtitle.str s) = Common.Subtitle.str s := by
  obtain ⟨c, cs, hcons, hc⟩ := exists_cons_not_space s.id hidne hid
  obtain ⟨d, m, hrev, hd⟩ := exists_concat_not_space s.text htextne htext
  have hassoc : s.id ++ '\n' :: (s.timestamps ++ '\n' :: s.text)
      = ((s.id ++ ('\n' :: s.timestamps)) ++ ['\n']) ++ s.text := by
    simp
  apply pyStrip_eq_self
  · unfold Common.Subtitle.str
    rw [hcons, List.cons_append, List.dropWhile_cons, if_neg (by simp [hc])]
  · unfold Common.Subtitle.str
    rw [hassoc, List.reverse_append, hrev, List.cons_append, List.dropWhile_cons,
      if_neg (by simp [hd])]

/-- Splitting a serialized block into its three parts. -/
theorem splitNl_str (s : Common.Subtitle)
    (hidnl : s.id.all (fun c => !(c = '\n')) = true)
    (htsnl : s.timestamps.all (fun c => !(c = '\n')) = true) :
    splitNl (Common.Subtitle.str s) = s.id :: s.timestamps :: splitNl s.text := by
  unfold Common.Subtitle.str
  rw [splitNl_noNl_append s.id _ hidnl, splitNl_noNl_append s.timestamps _ htsnl]

/-- Validity of a subtitle for the round-trip: nonempty all-digit id,
timestamps containing the arrow, single-line, equal to their strip, nonempty
stripped text without whitespace-only lines. -/
def validSub (s : Common.Subtitle) : Prop :=
  s.id ≠ [] ∧ s.id.all Char.isDigit = true ∧
  containsSub arrow s.timestamps = true ∧
  s.timestamps.all (fun c => !(c = '\n')) = true ∧
  pyStrip s.timestamps = s.timestamps ∧
  s.text ≠ [] ∧ pyStrip s.text = s.text ∧
  (∀ l ∈ splitNl s.text, l.dropWhile isPySpace ≠ [])

instance (s : Common.Subtitle) : Decidable (validSub s) := by
  unfold validSub
  infer_instance

/-- Parsing the serialization of a valid subtitle recovers its fields. -/
theorem parseBlock_str (s : Common.Subtitle) (hv : validSub s) :
    Common.parseBlock (Common.Subtitle.str s)
      = some ⟨s.id, s.timestamps, s.text, none⟩ := by
  obtain ⟨h1, h2, h3, h4, h5, h6, h7, _⟩ := hv
  have hidnl := all_digits_noNl s.id h2
  have hid := pyStrip_digits s.id h2
  have hstrip := pyStrip_str s hid h1 h7 h6
  have hsplit := splitNl_str s hidnl h4
  have hdig : isdigitB s.id = true := by
    unfold isdigitB
    rw [h2, Bool.and_true]
    cases hids : s.id with
    | nil => exact absurd hids h1
    | cons c cs => rfl
  simp only [Common.parseBlock]
  rw [hstrip, hsplit]
  rw [if_pos (by
    simp only [List.length_cons]
    have := List.length_pos.mpr (splitNl_ne_nil s.text)
    omega)]
  simp only [List.headD_cons, List.drop_succ_cons, List.drop_zero]
  rw [joinNl_splitNl, pyStrip_digits s.id h2, h5, h7, hdig, h3]
  rfl

/-- The serialization of a valid subtitle is separator-free. -/
theorem sepFreeB_str (s : Common.Subtitle) (hv : validSub s) :
    sepFreeB (Common.Subtitle.str s) = true := by
  obtain ⟨h1, h2, h3, h4, h5, h6, h7, h8⟩ := hv
  have hidnl := all_digits_noNl s.id h2
  obtain ⟨c, cs, hts, hc⟩ := exists_cons_not_space s.timestamps (ts_ne_nil_of_arrow _ h3) h5
  obtain ⟨d, ds, htx, hd⟩ := exists_cons_not_space s.text h6 h7
  unfold Common.Subtitle.str
  rw [sepFreeB_noNl_append s.id _ hidnl, sepFreeB_cons, if_pos rfl, Bool.and_eq_true]
  constructor
  · rw [hts, List.cons_append]
    exact noNlWsPreB_cons_of_not_space c _ hc
  · rw [sepFreeB_noNl_append s.timestamps _ h4, sepFreeB_cons, if_pos rfl, Bool.and_eq_true]
    constructor
    · rw [htx]
      exact noNlWsPreB_cons_of_not_space d _ hd
    · exact sepFreeB_text s.text h8

/-- The serialization of a valid subtitle starts with a digit. -/
theorem str_head_not_space (s : Common.Subtitle) (hv : validSub s) :
    ∃ c cs, Common.Subtitle.str s = c :: cs ∧ isPySpace c = false := by
  obtain ⟨h1, h2, _, _, _, _, _, _⟩ := hv
  obtain ⟨c, cs, hcons, hc⟩ := exists_cons_not_space s.id h1 (pyStrip_digits s.id h2)
  refine ⟨c, cs ++ '\n' :: (s.timestamps ++ '\n' :: s.text), ?_, hc⟩
  unfold Common.Subtitle.str
  rw [hcons, List.cons_append]

/- Round-trip assembly (claim C9) -/

/-- The blank-line join of a nonempty block list starts with its first block. -/
theorem joinBlocks_cons_exists (b : List Char) (bs : List (List Char)) :
    ∃ z, joinBlocks (b :: bs) = b ++ z := by
  cases bs with
  | nil => exact ⟨[], by rw [show joinBlocks [b] = b from rfl, List.append_nil]⟩
  | cons b2 bs2 => exact ⟨'\n' :: '\n' :: joinBlocks (b2 :: bs2), rfl⟩

/-- The blank-line join of a block list ends with its last block. -/
theorem joinBlocks_concat : ∀ (bs : List (List Char)) (b : List Char),
    ∃ w, joinBlocks (bs ++ [b]) = w ++ b := by
  intro bs
  induction bs with
  | nil => intro b; exact ⟨[], rfl⟩
  | cons b0 bs' ih =>
    intro b
    obtain ⟨w, hw⟩ := ih b
    cases hbs : bs' ++ [b] with
    | nil => exact absurd hbs (by simp)
    | cons x xs =>
      refine ⟨b0 ++ '\n' :: '\n' :: w, ?_⟩
      rw [List.cons_append, hbs,
        show joinBlocks (b0 :: x :: xs) = b0 ++ '\n' :: '\n' :: joinBlocks (x :: xs) from rfl,
        ← hbs, hw]
      simp

/-- The blank-line join of the serialized valid subtitles equals its strip. -/
theorem pyStrip_joinBlocks_str (subs : List Common.Subtitle) (hne : subs ≠ [])
    (hv : ∀ s ∈ subs, validSub s) :
    pyStrip (joinBlocks (subs.map Common.Subtitle.str))
      = joinBlocks (subs.map Common.Subtitle.str) := by
  apply pyStrip_eq_self
  · cases hs : subs with
    | nil => exact absurd hs hne
    | cons s0 rest =>
      obtain ⟨c, cs, hcons, hc⟩ := str_head_not_space s0 (hv s0 (by rw [hs]; simp))
      rw [List.map_cons]
      obtain ⟨z, hz⟩ := joinBlocks_cons_exists (Common.Subtitle.str s0)
        (rest.map Common.Subtitle.str)
      rw [hz, hcons, List.cons_append, List.dropWhile_cons, if_neg (by simp [hc])]
  · obtain h | ⟨init, slast, hconcat⟩ := List.eq_nil_or_concat subs
    · exact absurd h hne
    · rw [List.concat_eq_append] at hconcat
      have hvlast : validSub slast := hv slast (by rw [hconcat]; simp)
      have hvlast2 := hvlast
      obtain ⟨hid1, hid2, _, _, _, htx1, htx2, _⟩ := hvlast2
      have hstrlast := pyStrip_str slast (pyStrip_digits _ hid2) hid1 htx2 htx1
      have hstrne : Common.Subtitle.str slast ≠ [] := by
        obtain ⟨c, cs, hcons, _⟩ := str_head_not_space slast hvlast
        rw [hcons]
        simp
      obtain ⟨d, m, hrev, hd⟩ := exists_concat_not_space _ hstrne hstrlast
      rw [hconcat, List.map_append, List.map_singleton]
      obtain ⟨w, hw⟩ := joinBlocks_concat (init.map Common.Subtitle.str)
        (Common.Subtitle.str slast)
      rw [hw, List.reverse_append, hrev, List.cons_append, List.dropWhile_cons,
        if_neg (by simp [hd])]

/-- Parsing back the serialized valid subtitles recovers their fields. -/
theorem filterMap_parseBlock_map (subs : List Common.Subtitle)
    (hv : ∀ s ∈ subs, validSub s) :
    ((subs.map Common.Subtitle.str).filterMap Common.parseBlock).map fieldsOf
      = subs.map fieldsOf := by
  induction subs with
  | nil => rfl
  | cons s rest ih =>
    rw [List.map_cons, List.filterMap_cons_some (parseBlock_str s (hv s (by simp)))]
    rw [List.map_cons, List.map_cons]
    congr 1
    exact ih (fun x hx => hv x (by simp [hx]))

/-- Claim C9 (amended): for every list of valid subtitles (id a nonempty
all-digit string; timestamps containing the arrow, on a single line and
equal to their stripped form; text nonempty, equal to its stripped form,
with no empty or whitespace-only lines), parsing the blank-line join of
their serializations yields a list of subtitles with exactly the original
field values, in order. -/
theorem parse_srt_roundtrip (subs : List Common.Subtitle)
    (hv : ∀ s ∈ subs, validSub s) :
    (Common.parse_srt (joinBlocks (subs.map Common.Subtitle.str))).map fieldsOf
      = subs.map fieldsOf := by
  cases hs : subs with
  | nil => rfl
  | cons s0 rest =>
    rw [← hs]
    have hne : subs ≠ [] := by rw [hs]; simp
    have hall : ∀ b ∈ subs.map Common.Subtitle.str,
        sepFreeB b = true ∧ ∃ c cs, b = c :: cs ∧ isPySpace c = false := by
      intro b hb
      obtain ⟨s, hsmem, rfl⟩ := List.mem_map.mp hb
      exact ⟨sepFreeB_str s (hv s hsmem), str_head_not_space s (hv s hsmem)⟩
    unfold Common.parse_srt
    rw [pyStrip_joinBlocks_str subs hne hv,
      reSplit_joinBlocks _ (by rw [hs]; simp) hall]
    exact filterMap_parseBlock_map subs hv

/-- Witness for claim C9 at a concrete two-subtitle list. -/
theorem parse_srt_roundtrip_witness :
    (Common.parse_srt (joinBlocks
        (([⟨"2".toList, "00:00 --> 00:01".toList, "Hello\nWorld".toList, none⟩,
           ⟨"10".toList, "a --> b".toList, "x".toList, none⟩] :
          List Common.Subtitle).map Common.Subtitle.str))).map fieldsOf
      = ([⟨"2".toList, "00:00 --> 00:01".toList, "Hello\nWorld".toList, none⟩,
          ⟨"10".toList, "a --> b".toList, "x".toList, none⟩] :
         List Common.Subtitle).map fieldsOf :=
  parse_srt_roundtrip _ (by decide)

/-- Claim C9 (counterexample to the claim as stated): the subtitle with id
`"1"`, timestamps `"0 --> 1 "` (trailing space) and text `"x"` satisfies
every validity requirement the claim states, yet parsing its serialization
does not give back its fields — the parser strips the timestamp line, so the
trailing space is lost. -/
theorem parse_srt_roundtrip_fails_on_unstripped_ts :
    (⟨"1".toList, "0 --> 1 ".toList, "x".toList, none⟩ : Common.Subtitle).id ≠ [] ∧
    (⟨"1".toList, "0 --> 1 ".toList, "x".toList, none⟩ :
      Common.Subtitle).id.all Char.isDigit = true ∧
    containsSub arrow
      (⟨"1".toList, "0 --> 1 ".toList, "x".toList, none⟩ :
        Common.Subtitle).timestamps = true ∧
    (⟨"1".toList, "0 --> 1 ".toList, "x".toList, none⟩ : Common.Subtitle).text ≠ [] ∧
    pyStrip (⟨"1".toList, "0 --> 1 ".toList, "x".toList, none⟩ : Common.Subtitle).text
      = (⟨"1".toList, "0 --> 1 ".toList, "x".toList, none⟩ : Common.Subtitle).text ∧
    (∀ l ∈ splitNl (⟨"1".toList, "0 --> 1 ".toList, "x".toList, none⟩ :
        Common.Subtitle).text, l.dropWhile isPySpace ≠ []) ∧
    (Common.parse_srt (joinBlocks
        (([⟨"1".toList, "0 --> 1 ".toList, "x".toList, none⟩] :
          List Common.Subtitle).map Common.Subtitle.str))).map fieldsOf
      ≠ ([⟨"1".toList, "0 --> 1 ".toList, "x".toList, none⟩] :
         List Common.Subtitle).map fieldsOf := by
  decide
